import Mathlib

/-!
# Verification of the `lockr` fuzzy-search engine and interactive session

Shallow embedding of `internal/search` (the scoring engine in `fuzzy.go` and the
interactive session in `interactive.go`) of the `lockr` secret-storage CLI.

Modelling conventions:
* Go strings are modelled as `List Char` (rune sequences).  All inputs exercised
  by the specification are ASCII, where Go's byte offsets and rune offsets agree
  and `strings.ToLower` agrees with per-character lowering.
* Go `float64` scores are modelled as exact rationals (`ℚ`).  Every score the
  engine produces is built from small integer and ratio arithmetic; none of the
  proved comparisons depends on sub-ulp rounding of `float64`.
* Go `int` is modelled as `Int` where negative values are meaningful
  (`maxResults`) and as `Nat` where the source only ever produces non-negative
  values (string offsets, highlight bounds).
* A Go slice-bounds panic is modelled by returning `none`; every fallible
  operation is `Option`-valued and a caller propagates `none`.
* `sort.Slice` is an unstable comparison sort: its output is some permutation of
  the input that is sorted with respect to the comparator.  We model it by
  `List.insertionSort` with the relation "does not strictly compare after",
  which produces one such permutation; no theorem below depends on the order of
  comparator-equivalent elements.
-/

namespace Lockr

/- Batteries marks the arithmetic of `Rat` `@[irreducible]`; re-allow unfolding
within this file so that concrete scores evaluate by `rfl`/`decide`. -/
attribute [local semireducible] Rat.add Rat.mul Rat.sub Rat.inv

/-- `database.SearchResult`: a secret entry as handed to the search engine.
`Key` is the searchable label; `AccessCount` stands for the metadata that is
opaque to the engine (the remaining metadata fields play no role in search). -/
structure SearchResult where
  Key : List Char
  AccessCount : Int
deriving DecidableEq, Repr

/-- `HighlightRange`: a half-open character range `[Start, End)` of a label to
highlight.  The source stores Go `int`s but only ever writes non-negative
offsets, so we use `Nat`. -/
structure HighlightRange where
  Start : Nat
  End : Nat
deriving DecidableEq, Repr

/-- `MatchResult`: a scored search match. -/
structure MatchResult where
  Result : SearchResult
  Score : ℚ
  Highlights : List HighlightRange
deriving DecidableEq, Repr

/-- `Engine`: the fuzzy search engine's configuration. -/
structure Engine where
  caseSensitive : Bool
  maxResults : Int
  highlightMatches : Bool
deriving DecidableEq, Repr

/-- `NewEngine`: default engine settings. -/
def NewEngine : Engine :=
  { caseSensitive := false, maxResults := 100, highlightMatches := true }

/-- `Engine.SetMaxResults`: sets the maximum number of results (no validation
is performed on `max` in the source). -/
def SetMaxResults (e : Engine) (max : Int) : Engine :=
  { e with maxResults := max }

/-- `Engine.SetCaseSensitive`. -/
def SetCaseSensitive (e : Engine) (sensitive : Bool) : Engine :=
  { e with caseSensitive := sensitive }

/-- `Engine.SetHighlightMatches`. -/
def SetHighlightMatches (e : Engine) (highlight : Bool) : Engine :=
  { e with highlightMatches := highlight }

/-- `Engine.normalizeString`: identity when case sensitive, otherwise
`strings.ToLower` (rune-wise lowering; exact on ASCII). -/
def normalizeString (e : Engine) (s : List Char) : List Char :=
  if e.caseSensitive then s else s.map Char.toLower

/-- Lexicographic strict order on rune lists; models Go's `<` on strings
(bytewise lexicographic, which agrees with rune-wise order under UTF-8). -/
def lexLt : List Char → List Char → Bool
  | [], [] => false
  | [], _ :: _ => true
  | _ :: _, [] => false
  | a :: as, b :: bs => if a < b then true else if b < a then false else lexLt as bs

/-- `strings.Index`: offset of the first occurrence of `needle` in the list, or
`none` (Go returns `-1`) when absent. -/
def strIndex (needle : List Char) : List Char → Option Nat
  | [] => if needle.isPrefixOf [] then some 0 else none
  | c :: t =>
    if needle.isPrefixOf (c :: t) then some 0
    else (strIndex needle t).map (· + 1)

/-- The scanning loop of `Engine.fuzzyScore`: walks the target left to right,
greedily consuming query characters.  Returns the matched target positions (in
ascending order), the accumulated per-character score with consecutive-run
bonuses, and the number of query characters left unmatched when the target is
exhausted. -/
def fuzzyWalk : List Char → List Char → Nat → Nat → List Nat × ℚ × Nat
  | q, [], _, _ => ([], 0, q.length)
  | [], _ :: _, _, _ => ([], 0, 0)
  | qc :: qs, tc :: ts, targetPos, consecutiveMatches =>
    if qc = tc then
      let charScore : ℚ := 2 + ((consecutiveMatches : ℚ) + 1) * (1 / 2)
      let rest := fuzzyWalk qs ts (targetPos + 1) (consecutiveMatches + 1)
      (targetPos :: rest.1, charScore + rest.2.1, rest.2.2)
    else
      fuzzyWalk (qc :: qs) ts (targetPos + 1) 0

/-- The merging loop of `Engine.createHighlights`: `start`/`e` are the current
open range, remaining positions either extend it (`p = e`) or close it and open
a new one. -/
def highlightsLoop : List Nat → Nat → Nat → List HighlightRange
  | [], start, e => [⟨start, e⟩]
  | p :: ps, start, e =>
    if p = e then highlightsLoop ps start (p + 1)
    else ⟨start, e⟩ :: highlightsLoop ps p (p + 1)

/-- `Engine.createHighlights`: merges consecutive matched positions into
contiguous highlight ranges (the `original` rune-slice argument of the source
is never read by the body). -/
def createHighlights (positions : List Nat) (_original : List Char) :
    List HighlightRange :=
  match positions with
  | [] => []
  | p :: ps => highlightsLoop ps p (p + 1)

/-- `Engine.fuzzyScore`: ordered-subsequence matching with consecutive-run
bonuses; rejects (score `0`) when some query character cannot be matched. -/
def fuzzyScore (query target originalTarget : List Char) :
    ℚ × List HighlightRange :=
  if query.length = 0 ∨ target.length = 0 then (0, [])
  else
    let walked := fuzzyWalk query target 0 0
    let matchedPositions := walked.1
    let totalScore := walked.2.1
    if 0 < walked.2.2 then (0, [])
    else
      let matchFrac : ℚ := (matchedPositions.length : ℚ) / (query.length : ℚ)
      let lengthFrac : ℚ := (query.length : ℚ) / (target.length : ℚ)
      let finalScore := totalScore * matchFrac * lengthFrac * 20
      let finalScore := if finalScore < 10 then 10 else finalScore
      let highlights :=
        if 0 < matchedPositions.length then
          createHighlights matchedPositions originalTarget
        else []
      (finalScore, highlights)

/-- `Engine.scoreMatch`: the tiered scoring policy — exact `100`, starts-with
`90`, substring `80 − 2·idx` floored at `50`, otherwise fuzzy subsequence. -/
def scoreMatch (e : Engine) (query target : List Char) :
    ℚ × List HighlightRange :=
  let queryNorm := normalizeString e query
  let targetNorm := normalizeString e target
  if queryNorm = targetNorm then
    (100, [⟨0, target.length⟩])
  else if queryNorm.isPrefixOf targetNorm then
    (90, [⟨0, query.length⟩])
  else
    match strIndex queryNorm targetNorm with
    | some idx =>
      let score : ℚ := 80 - (idx : ℚ) * 2
      let score := if score < 50 then 50 else score
      (score, [⟨idx, idx + query.length⟩])
    | none =>
      let fuzzy := fuzzyScore queryNorm targetNorm target
      if 0 < fuzzy.1 then fuzzy else (0, [])

/-- The comparator closure handed to `sort.Slice` in `Engine.Search`:
descending score, then "normalized key starts with normalized query" first,
then ascending normalized key. -/
def resultLess (e : Engine) (query : List Char) (a b : MatchResult) : Bool :=
  if a.Score ≠ b.Score then decide (b.Score < a.Score)
  else
    let aKey := normalizeString e a.Result.Key
    let bKey := normalizeString e b.Result.Key
    let queryNorm := normalizeString e query
    let aStartsWith := queryNorm.isPrefixOf aKey
    let bStartsWith := queryNorm.isPrefixOf bKey
    if aStartsWith ≠ bStartsWith then aStartsWith
    else lexLt aKey bKey

/-- `Engine.limitResults`: truncates to `maxResults`.  When `maxResults` is
negative the source evaluates `results[:maxResults]`, a slice-bounds panic,
modelled as `none`. -/
def limitResults (e : Engine) (results : List MatchResult) :
    Option (List MatchResult) :=
  if (results.length : Int) ≤ e.maxResults then some results
  else if 0 ≤ e.maxResults then some (results.take e.maxResults.toNat)
  else none

/-- The per-candidate body of the scoring loop in `Engine.Search`: keep the
candidate iff its score is positive, attaching highlights only when enabled. -/
def mkMatch (e : Engine) (query : List Char) (secret : SearchResult) :
    Option MatchResult :=
  let scored := scoreMatch e query secret.Key
  if 0 < scored.1 then
    some { Result := secret, Score := scored.1,
           Highlights := if e.highlightMatches then scored.2 else [] }
  else none

/-- `Engine.Search`: empty query returns every candidate with score `0` in
input order; otherwise scores, filters, sorts and truncates. -/
def Search (e : Engine) (query : List Char) (secrets : List SearchResult) :
    Option (List MatchResult) :=
  if query.length = 0 then
    limitResults e (secrets.map fun secret =>
      { Result := secret, Score := 0, Highlights := [] })
  else
    let found := secrets.filterMap (mkMatch e query)
    limitResults e
      (List.insertionSort (fun a b => resultLess e query b a = false) found)

/-- `Engine.SearchInteractive`: temporarily overrides `maxResults`, searches,
restores the old value and returns the results.  The restored engine is part of
the result; on a search panic (`none`) the restore never runs in the source, so
no final engine state is produced. -/
def SearchInteractive (e : Engine) (query : List Char)
    (secrets : List SearchResult) (maxResults : Int) :
    Option (List MatchResult × Engine) :=
  let e1 := SetMaxResults e maxResults
  (Search e1 query secrets).map fun results =>
    (results, SetMaxResults e1 e.maxResults)

/-- `MatchQuality`: classification of a match. -/
inductive MatchQuality where
  | ExactMatch
  | PrefixMatch
  | SubstringMatch
  | FuzzyMatch
  | NoMatch
deriving DecidableEq, Repr

/-- `Engine.GetMatchQuality`: classifies a query/target pair using the same
tier order as `scoreMatch`. -/
def GetMatchQuality (e : Engine) (query target : List Char) : MatchQuality :=
  let queryNorm := normalizeString e query
  let targetNorm := normalizeString e target
  if queryNorm = targetNorm then .ExactMatch
  else if queryNorm.isPrefixOf targetNorm then .PrefixMatch
  else if (strIndex queryNorm targetNorm).isSome then .SubstringMatch
  else if 0 < (fuzzyScore queryNorm targetNorm target).1 then .FuzzyMatch
  else .NoMatch

/-! ## Interactive session (`interactive.go`) -/

/-- `MaxDisplayResults`: size of the visible result window. -/
def MaxDisplayResults : Nat := 5

/-- `InteractiveSearch`: the live session state (the `styles` field of the
source is pure terminal styling and carries no search state). -/
structure InteractiveSearch where
  engine : Engine
  secrets : List SearchResult
  results : List MatchResult
  query : List Char
  selected : Int
  active : Bool
deriving DecidableEq, Repr

/-- `NewInteractiveSearch`: fresh session; the engine's cap is set to
`MaxDisplayResults * 2`. -/
def NewInteractiveSearch (secrets : List SearchResult) : InteractiveSearch :=
  { engine := SetMaxResults NewEngine (MaxDisplayResults * 2)
    secrets := secrets
    results := []
    query := []
    selected := 0
    active := true }

/-- `InteractiveSearch.updateResults`: recomputes results for the current
query, truncates to the display window, and clamps the selection index. -/
def updateResults (is : InteractiveSearch) : Option InteractiveSearch :=
  (Search is.engine is.query is.secrets).map fun allResults =>
    let displayCount :=
      if allResults.length < MaxDisplayResults then allResults.length
      else MaxDisplayResults
    let results := allResults.take displayCount
    let selected :=
      if (results.length : Int) ≤ is.selected then (results.length : Int) - 1
      else is.selected
    let selected :=
      if selected < 0 ∧ 0 < results.length then 0 else selected
    { is with results := results, selected := selected }

/-- `InteractiveSearch.AddChar`: appends a character to the query, refreshes
results, resets the selection. -/
def AddChar (is : InteractiveSearch) (ch : Char) : Option InteractiveSearch :=
  (updateResults { is with query := is.query ++ [ch] }).map fun is' =>
    { is' with selected := 0 }

/-- `InteractiveSearch.RemoveChar`: drops the last query character (no-op on an
empty query), refreshes results, resets the selection. -/
def RemoveChar (is : InteractiveSearch) : Option InteractiveSearch :=
  if 0 < is.query.length then
    (updateResults { is with query := is.query.dropLast }).map fun is' =>
      { is' with selected := 0 }
  else some is

/-- `InteractiveSearch.MoveSelection`: moves the cursor with wraparound; no-op
when there are no results. -/
def MoveSelection (is : InteractiveSearch) (direction : Int) :
    InteractiveSearch :=
  if is.results.length = 0 then is
  else
    let selected := is.selected + direction
    let selected :=
      if selected < 0 then (is.results.length : Int) - 1
      else if (is.results.length : Int) ≤ selected then 0
      else selected
    { is with selected := selected }

/-- `InteractiveSearch.GetSelectedResult`: defensive bounds-checked accessor. -/
def GetSelectedResult (is : InteractiveSearch) : Option MatchResult :=
  if is.results.length = 0 ∨ is.selected < 0 ∨
      (is.results.length : Int) ≤ is.selected then none
  else is.results[is.selected.toNat]?

/-- The `totalMatches` computation of `InteractiveSearch.Render`: the length of
a second `Search` run with the session engine's own (capped) configuration. -/
def renderTotalMatches (is : InteractiveSearch) : Option Nat :=
  (Search is.engine is.query is.secrets).map List.length

/-- The "N more results" count shown by `InteractiveSearch.Render`:
`totalMatches - len(results)` (displayed only when positive). -/
def renderMoreCount (is : InteractiveSearch) : Option Nat :=
  (renderTotalMatches is).map fun totalMatches => totalMatches - is.results.length

/-- The number of candidates scoring strictly positive against a query — what
the specification calls the uncapped `totalMatches`. -/
def positiveMatchCount (e : Engine) (query : List Char)
    (secrets : List SearchResult) : Nat :=
  (secrets.filter fun secret => 0 < (scoreMatch e query secret.Key).1).length

/-- `Model`: the Bubble Tea model wrapping a session; `selected` is set by the
Enter key and read out after the program terminates. -/
structure Model where
  search : InteractiveSearch
  quitting : Bool
  selected : Option MatchResult
deriving DecidableEq, Repr

/-- `Model.GetSelectedKey`: key of the selected result, or `""`. -/
def GetSelectedKey (m : Model) : List Char :=
  match m.selected with
  | some r => r.Result.Key
  | none => []

/-- The selection-extraction tail of `RunInteractiveSearch`: once the TUI loop
has produced the final model, a selection yields its key and a cancelled or
selection-free run yields `("", nil)` — the empty string. -/
def runSearchOutcome (final : Model) : List Char :=
  match final.selected with
  | some sel => sel.Result.Key
  | none => []

/-- One driving event of the session, as dispatched by `Model.Update`. -/
inductive Op where
  | add (ch : Char)
  | remove
  | move (direction : Int)
deriving DecidableEq, Repr

/-- Applies one event to the session state. -/
def applyOp (is : InteractiveSearch) : Op → Option InteractiveSearch
  | .add ch => AddChar is ch
  | .remove => RemoveChar is
  | .move d => some (MoveSelection is d)

/-- Runs a sequence of events from a session state. -/
def runOps (is : InteractiveSearch) : List Op → Option InteractiveSearch
  | [] => some is
  | op :: ops => (applyOp is op).bind (runOps · ops)

/-- The session-state invariant claimed by the specification: the visible
window never exceeds `MaxDisplayResults`, and the selection index is in bounds
whenever the window is non-empty. -/
def SessionInv (is : InteractiveSearch) : Prop :=
  is.results.length ≤ MaxDisplayResults ∧
    (is.results ≠ [] → 0 ≤ is.selected ∧ is.selected < (is.results.length : Int))

/-- Validity of a highlight list against a label of length `n`: each range is
non-degenerate and in bounds, and the ranges are pairwise ordered and
non-overlapping (each one ends no later than the next begins). -/
def ValidHighlights (n : Nat) (hs : List HighlightRange) : Prop :=
  (∀ h ∈ hs, h.Start < h.End ∧ h.End ≤ n) ∧
    hs.Pairwise fun a b => a.End ≤ b.Start

/-! ## Order facts about the sort comparator -/

theorem lexLt_irrefl : ∀ a : List Char, lexLt a a = false
  | [] => rfl
  | c :: cs => by simp [lexLt, lexLt_irrefl cs]

theorem lexLt_trans :
    ∀ a b c : List Char, lexLt a b = true → lexLt b c = true → lexLt a c = true := by
  intro a
  induction a with
  | nil =>
    intro b c h1 h2
    cases b with
    | nil => simp [lexLt] at h1
    | cons bh bs =>
      cases c with
      | nil => simp [lexLt] at h2
      | cons ch cs => simp [lexLt]
  | cons ah as ih =>
    intro b c h1 h2
    cases b with
    | nil => simp [lexLt] at h1
    | cons bh bs =>
      cases c with
      | nil => simp [lexLt] at h2
      | cons ch cs =>
        simp only [lexLt] at h1 h2 ⊢
        rcases lt_trichotomy ah bh with hab | hab | hab
        · rcases lt_trichotomy bh ch with hbc | hbc | hbc
          · simp [lt_trans hab hbc]
          · subst hbc; simp [hab]
          · rw [if_neg (asymm hbc), if_pos hbc] at h2; simp at h2
        · subst hab
          rw [if_neg (lt_irrefl _), if_neg (lt_irrefl _)] at h1
          rcases lt_trichotomy ah ch with hac | hac | hac
          · simp [hac]
          · subst hac
            rw [if_neg (lt_irrefl _), if_neg (lt_irrefl _)] at h2 ⊢
            exact ih _ _ h1 h2
          · rw [if_neg (asymm hac), if_pos hac] at h2; simp at h2
        · rw [if_neg (asymm hab), if_pos hab] at h1; simp at h1

theorem lexLt_connex :
    ∀ a b : List Char, lexLt a b = false → lexLt b a = false → a = b := by
  intro a
  induction a with
  | nil =>
    intro b h1 _
    cases b with
    | nil => rfl
    | cons bh bs => simp [lexLt] at h1
  | cons ah as ih =>
    intro b h1 h2
    cases b with
    | nil => simp [lexLt] at h2
    | cons bh bs =>
      simp only [lexLt] at h1 h2
      rcases lt_trichotomy ah bh with hab | hab | hab
      · rw [if_pos hab] at h1; simp at h1
      · subst hab
        rw [if_neg (lt_irrefl _), if_neg (lt_irrefl _)] at h1 h2
        rw [ih bs h1 h2]
      · rw [if_pos hab] at h2; simp at h2

theorem lexLt_nle_trans {a b c : List Char} (h1 : lexLt b a = false)
    (h2 : lexLt c b = false) : lexLt c a = false := by
  by_contra h
  have hca : lexLt c a = true := by
    cases hv : lexLt c a with
    | false => exact absurd hv h
    | true => rfl
  cases hbc : lexLt b c with
  | true =>
    have := lexLt_trans b c a hbc hca
    rw [this] at h1; exact Bool.noConfusion h1
  | false =>
    have hbceq : b = c := lexLt_connex b c hbc h2
    subst hbceq
    rw [hca] at h1; exact Bool.noConfusion h1

/-- `resultLess a b = false` forces `a.Score ≤ b.Score`. -/
theorem resultLess_false_score_le {e : Engine} {q : List Char}
    {a b : MatchResult} (h : resultLess e q a b = false) : a.Score ≤ b.Score := by
  unfold resultLess at h
  by_cases hs : a.Score = b.Score
  · exact le_of_eq hs
  · rw [if_pos hs] at h
    simp only [decide_eq_false_iff_not, not_lt] at h
    exact h

theorem lexLt_asymm {a b : List Char} (h : lexLt a b = true) : lexLt b a = false := by
  cases hv : lexLt b a with
  | false => rfl
  | true =>
    have := lexLt_trans a b a h hv
    rw [lexLt_irrefl] at this
    exact Bool.noConfusion this

theorem tieLess_total (x y : Bool) (k1 k2 : List Char) :
    (if x ≠ y then x else lexLt k1 k2) = false ∨
      (if y ≠ x then y else lexLt k2 k1) = false := by
  cases x <;> cases y <;> simp <;>
    · cases hv : lexLt k1 k2 with
      | false => exact Or.inl rfl
      | true => exact Or.inr (lexLt_asymm hv)

theorem tieLess_trans {xa xb xc : Bool} {ka kb kc : List Char}
    (h1 : (if xb ≠ xa then xb else lexLt kb ka) = false)
    (h2 : (if xc ≠ xb then xc else lexLt kc kb) = false) :
    (if xc ≠ xa then xc else lexLt kc ka) = false := by
  cases xa <;> cases xb <;> cases xc <;> simp_all <;>
    exact lexLt_nle_trans h1 h2

theorem condLess_score_le {s1 s2 : ℚ} {tie : Bool}
    (h : (if s1 ≠ s2 then decide (s2 < s1) else tie) = false) : s1 ≤ s2 := by
  by_cases hs : s1 = s2
  · exact le_of_eq hs
  · rw [if_pos hs] at h
    simp only [decide_eq_false_iff_not, not_lt] at h
    exact h

theorem fullLess_total (sa sb : ℚ) (x y : Bool) (k1 k2 : List Char) :
    (if sa ≠ sb then decide (sb < sa) else if x ≠ y then x else lexLt k1 k2)
        = false ∨
      (if sb ≠ sa then decide (sa < sb) else if y ≠ x then y else lexLt k2 k1)
        = false := by
  by_cases hs : sa = sb
  · subst hs
    rw [if_neg (show ¬ (sa ≠ sa) by simp), if_neg (show ¬ (sa ≠ sa) by simp)]
    exact tieLess_total x y k1 k2
  · rw [if_pos hs, if_pos fun hh => hs hh.symm]
    rcases le_total sa sb with h | h
    · refine Or.inl ?_
      simp only [decide_eq_false_iff_not, not_lt]
      exact h
    · refine Or.inr ?_
      simp only [decide_eq_false_iff_not, not_lt]
      exact h

theorem fullLess_trans {sa sb sc : ℚ} {x y z : Bool} {k1 k2 k3 : List Char}
    (h1 : (if sb ≠ sa then decide (sa < sb) else if y ≠ x then y else lexLt k2 k1)
        = false)
    (h2 : (if sc ≠ sb then decide (sb < sc) else if z ≠ y then z else lexLt k3 k2)
        = false) :
    (if sc ≠ sa then decide (sa < sc) else if z ≠ x then z else lexLt k3 k1)
        = false := by
  have hba : sb ≤ sa := condLess_score_le h1
  have hcb : sc ≤ sb := condLess_score_le h2
  by_cases hs : sc = sa
  · have hsb : sb = sa := le_antisymm hba (hs ▸ hcb)
    have hsc : sc = sb := by rw [hs, hsb]
    rw [if_neg (show ¬ (sb ≠ sa) by simp [hsb])] at h1
    rw [if_neg (show ¬ (sc ≠ sb) by simp [hsc])] at h2
    rw [if_neg (show ¬ (sc ≠ sa) by simp [hs])]
    exact tieLess_trans h1 h2
  · rw [if_pos hs]
    simp only [decide_eq_false_iff_not, not_lt]
    exact le_trans hcb hba

/-- The comparator is never strict in both directions. -/
theorem resultLess_total (e : Engine) (q : List Char) (a b : MatchResult) :
    resultLess e q a b = false ∨ resultLess e q b a = false := by
  unfold resultLess
  exact fullLess_total a.Score b.Score _ _ _ _

/-- Transitivity of "does not strictly compare after". -/
theorem resultLess_false_trans {e : Engine} {q : List Char} {a b c : MatchResult}
    (h1 : resultLess e q b a = false) (h2 : resultLess e q c b = false) :
    resultLess e q c a = false := by
  unfold resultLess at h1 h2 ⊢
  exact fullLess_trans h1 h2

/-! ## Structural lemmas about `Search` -/

/-- The list sorted in `Search` is sorted for "does not strictly compare
after". -/
theorem search_sorted (e : Engine) (q : List Char) (l : List MatchResult) :
    List.Sorted (fun a b => resultLess e q b a = false)
      (List.insertionSort (fun a b => resultLess e q b a = false) l) := by
  haveI : IsTotal MatchResult (fun a b => resultLess e q b a = false) :=
    ⟨fun a b => resultLess_total e q b a⟩
  haveI : IsTrans MatchResult (fun a b => resultLess e q b a = false) :=
    ⟨fun _ _ _ h1 h2 => resultLess_false_trans h1 h2⟩
  exact List.sorted_insertionSort _ _

theorem limitResults_mem {e : Engine} {l rs : List MatchResult} {r : MatchResult}
    (h : limitResults e l = some rs) (hm : r ∈ rs) : r ∈ l := by
  unfold limitResults at h
  split at h
  · cases h; exact hm
  · split at h
    · cases h; exact List.take_subset _ _ hm
    · cases h

theorem limitResults_length {e : Engine} {l rs : List MatchResult}
    (h : limitResults e l = some rs) :
    rs.length = min l.length e.maxResults.toNat := by
  unfold limitResults at h
  split at h
  · cases h
    next hle => symm; apply min_eq_left; omega
  · split at h
    · cases h
      next hgt hpos =>
        rw [List.length_take]
        omega
    · cases h

theorem limitResults_cons {e : Engine} (hmax : 1 ≤ e.maxResults)
    (x : MatchResult) (t : List MatchResult) :
    ∃ t', limitResults e (x :: t) = some (x :: t') := by
  unfold limitResults
  split
  · exact ⟨t, rfl⟩
  · rw [if_pos (by omega)]
    obtain ⟨k, hk⟩ : ∃ k, e.maxResults.toNat = k + 1 := ⟨e.maxResults.toNat - 1, by omega⟩
    rw [hk]
    exact ⟨t.take k, rfl⟩

theorem normalizeString_length (e : Engine) (s : List Char) :
    (normalizeString e s).length = s.length := by
  unfold normalizeString
  split
  · rfl
  · exact List.length_map _ _

theorem mkMatch_eq_some {e : Engine} {q : List Char} {s : SearchResult}
    {r : MatchResult} (h : mkMatch e q s = some r) :
    0 < (scoreMatch e q s.Key).1 ∧ r.Result = s ∧
      r.Score = (scoreMatch e q s.Key).1 ∧
      r.Highlights = (if e.highlightMatches then (scoreMatch e q s.Key).2 else []) := by
  unfold mkMatch at h
  dsimp only at h
  split at h
  · cases h
    next hpos => exact ⟨hpos, rfl, rfl, rfl⟩
  · cases h

/-- Every result of a non-empty-query search arises from a positively scored
candidate. -/
theorem search_mem {e : Engine} {q : List Char} {secrets : List SearchResult}
    {rs : List MatchResult} {r : MatchResult} (hq : 0 < q.length)
    (h : Search e q secrets = some rs) (hr : r ∈ rs) :
    ∃ s, s ∈ secrets ∧ mkMatch e q s = some r := by
  unfold Search at h
  rw [if_neg (by omega)] at h
  have hm := limitResults_mem h hr
  rw [List.mem_insertionSort] at hm
  exact List.mem_filterMap.mp hm

/-- Every result of an empty-query search is an input candidate with score `0`
and no highlights. -/
theorem search_mem_empty {e : Engine} {q : List Char} {secrets : List SearchResult}
    {rs : List MatchResult} {r : MatchResult} (hq : q.length = 0)
    (h : Search e q secrets = some rs) (hr : r ∈ rs) :
    r.Result ∈ secrets ∧ r.Score = 0 ∧ r.Highlights = [] := by
  unfold Search at h
  rw [if_pos hq] at h
  have hm := limitResults_mem h hr
  obtain ⟨s, hs, hmap⟩ := List.mem_map.mp hm
  cases hmap
  exact ⟨hs, rfl, rfl⟩

/-! ## Lemmas about `strIndex` -/

theorem strIndex_bound {needle : List Char} :
    ∀ {hay : List Char} {idx : Nat}, strIndex needle hay = some idx →
      idx + needle.length ≤ hay.length := by
  intro hay
  induction hay with
  | nil =>
    intro idx h
    unfold strIndex at h
    split at h
    · cases h
      next hpre =>
        have : needle <+: ([] : List Char) := List.isPrefixOf_iff_prefix.mp hpre
        have := this.length_le
        simpa using this
    · cases h
  | cons c t ih =>
    intro idx h
    unfold strIndex at h
    split at h
    · cases h
      next hpre =>
        have : needle <+: (c :: t) := List.isPrefixOf_iff_prefix.mp hpre
        simpa using this.length_le
    · cases hv : strIndex needle t with
      | none => rw [hv] at h; cases h
      | some i =>
        rw [hv] at h
        cases h
        have := ih hv
        simp only [List.length_cons]
        omega

/-- `strIndex` finds the first occurrence: the needle starts at the returned
offset and at no earlier offset. -/
theorem strIndex_drop {needle : List Char} :
    ∀ {hay : List Char} {idx : Nat}, strIndex needle hay = some idx →
      needle.isPrefixOf (hay.drop idx) = true ∧
        ∀ j, j < idx → needle.isPrefixOf (hay.drop j) = false := by
  intro hay
  induction hay with
  | nil =>
    intro idx h
    unfold strIndex at h
    split at h
    · cases h
      next hpre => exact ⟨hpre, fun j hj => absurd hj (Nat.not_lt_zero j)⟩
    · cases h
  | cons c t ih =>
    intro idx h
    unfold strIndex at h
    split at h
    · cases h
      next hpre => exact ⟨hpre, fun j hj => absurd hj (Nat.not_lt_zero j)⟩
    · next hno =>
      cases hv : strIndex needle t with
      | none => rw [hv] at h; cases h
      | some i =>
        rw [hv] at h
        cases h
        obtain ⟨h1, h2⟩ := ih hv
        refine ⟨h1, fun j hj => ?_⟩
        cases j with
        | zero =>
          simp only [List.drop_zero]
          exact Bool.eq_false_iff.mpr hno
        | succ j' =>
          simp only [List.drop_succ_cons]
          have hj2 : j' + 1 < i + 1 := by simpa using hj
          exact h2 j' (by omega)

/-- Converse: the first-occurrence conditions pin down `strIndex`. -/
theorem strIndex_eq_some {needle : List Char} :
    ∀ {hay : List Char} {idx : Nat},
      needle.isPrefixOf (hay.drop idx) = true →
      (∀ j, j < idx → needle.isPrefixOf (hay.drop j) = false) →
      strIndex needle hay = some idx := by
  intro hay
  induction hay with
  | nil =>
    intro idx h1 h2
    cases idx with
    | zero => unfold strIndex; rw [if_pos (by simpa using h1)]
    | succ i =>
      exfalso
      have h0 := h2 0 (by omega)
      simp only [List.drop_zero] at h0
      simp only [List.drop_nil] at h1
      rw [h1] at h0
      exact Bool.noConfusion h0
  | cons c t ih =>
    intro idx h1 h2
    cases idx with
    | zero =>
      unfold strIndex
      rw [if_pos (by simpa using h1)]
    | succ i =>
      have h0 := h2 0 (by omega)
      simp only [List.drop_zero] at h0
      unfold strIndex
      rw [if_neg (by rw [h0]; exact Bool.noConfusion)]
      have : strIndex needle t = some i := by
        apply ih
        · simpa using h1
        · intro j hj
          have := h2 (j + 1) (by omega)
          simpa using this
      rw [this]
      rfl

theorem strIndex_sublist {needle hay : List Char} {idx : Nat}
    (h : strIndex needle hay = some idx) : needle.Sublist hay := by
  have h1 := (strIndex_drop h).1
  have h2 : needle <+: hay.drop idx := List.isPrefixOf_iff_prefix.mp h1
  exact h2.sublist.trans (List.drop_sublist idx hay)

/-! ## Lemmas about fuzzy matching and highlights -/

/-- If the greedy walk consumes the whole query, the query is an ordered
subsequence of the target. -/
theorem fuzzyWalk_rem_zero_sublist (q t : List Char) :
    ∀ tp c, (fuzzyWalk q t tp c).2.2 = 0 → q.Sublist t := by
  induction t generalizing q with
  | nil =>
    intro tp c h
    cases q with
    | nil => exact List.nil_sublist _
    | cons qc qs => simp [fuzzyWalk] at h
  | cons tc ts ih =>
    intro tp c h
    cases q with
    | nil => exact List.nil_sublist _
    | cons qc qs =>
      unfold fuzzyWalk at h
      by_cases hq : qc = tc
      · rw [if_pos hq] at h
        dsimp only at h
        subst hq
        exact (ih qs _ _ h).cons₂ qc
      · rw [if_neg hq] at h
        exact (ih (qc :: qs) _ _ h).cons tc

/-- The matched positions are strictly increasing and lie in
`[tp, tp + t.length)`. -/
theorem fuzzyWalk_positions (q t : List Char) :
    ∀ tp c, (fuzzyWalk q t tp c).1.Pairwise (· < ·) ∧
      ∀ p ∈ (fuzzyWalk q t tp c).1, tp ≤ p ∧ p < tp + t.length := by
  induction t generalizing q with
  | nil =>
    intro tp c
    cases q <;> simp [fuzzyWalk]
  | cons tc ts ih =>
    intro tp c
    cases q with
    | nil => simp [fuzzyWalk]
    | cons qc qs =>
      unfold fuzzyWalk
      by_cases hq : qc = tc
      · rw [if_pos hq]
        dsimp only
        obtain ⟨hpw, hbound⟩ := ih qs (tp + 1) (c + 1)
        constructor
        · exact List.Pairwise.cons (fun p hp => by have := (hbound p hp).1; omega) hpw
        · intro p hp
          rcases List.mem_cons.mp hp with rfl | hp
          · simp only [List.length_cons]
            omega
          · have := hbound p hp
            simp only [List.length_cons]
            omega
      · rw [if_neg hq]
        obtain ⟨hpw, hbound⟩ := ih (qc :: qs) (tp + 1) 0
        refine ⟨hpw, fun p hp => ?_⟩
        have := hbound p hp
        simp only [List.length_cons]
        omega

/-- The merging loop produces well-formed, ordered, non-overlapping ranges. -/
theorem highlightsLoop_valid :
    ∀ (ps : List Nat) (start e n : Nat), start < e → e ≤ n →
      (∀ p ∈ ps, e ≤ p ∧ p < n) → ps.Pairwise (· < ·) →
      (∀ h ∈ highlightsLoop ps start e,
          start ≤ h.Start ∧ h.Start < h.End ∧ h.End ≤ n) ∧
        (highlightsLoop ps start e).Pairwise fun a b => a.End ≤ b.Start
  | [], start, e, n, h1, h2, _, _ => by
    constructor
    · intro h hh
      simp only [highlightsLoop, List.mem_singleton] at hh
      subst hh
      exact ⟨le_refl _, h1, h2⟩
    · simp [highlightsLoop]
  | p :: ps, start, e, n, h1, h2, hb, hpw => by
    obtain ⟨hhead, htail⟩ := List.pairwise_cons.mp hpw
    have hpn : p < n := (hb p (List.mem_cons_self p ps)).2
    have hep : e ≤ p := (hb p (List.mem_cons_self p ps)).1
    unfold highlightsLoop
    by_cases hpe : p = e
    · rw [if_pos hpe]
      exact highlightsLoop_valid ps start (p + 1) n (by omega) (by omega)
        (fun x hx => ⟨by have := hhead x hx; omega, (hb x (List.mem_cons_of_mem p hx)).2⟩)
        htail
    · rw [if_neg hpe]
      have hrec := highlightsLoop_valid ps p (p + 1) n (by omega) (by omega)
        (fun x hx => ⟨by have := hhead x hx; omega, (hb x (List.mem_cons_of_mem p hx)).2⟩)
        htail
      constructor
      · intro h hh
        rcases List.mem_cons.mp hh with rfl | hh
        · exact ⟨le_refl _, h1, h2⟩
        · have := hrec.1 h hh
          refine ⟨by omega, this.2⟩
      · refine List.pairwise_cons.mpr ⟨fun h hh => ?_, hrec.2⟩
        have := (hrec.1 h hh).1
        show e ≤ h.Start
        omega

/-- `createHighlights` on strictly increasing positions below `n` yields valid
highlights for a label of length `n`. -/
theorem createHighlights_valid {positions : List Nat} {orig : List Char} {n : Nat}
    (hpw : positions.Pairwise (· < ·)) (hb : ∀ p ∈ positions, p < n) :
    ValidHighlights n (createHighlights positions orig) := by
  cases positions with
  | nil =>
    constructor
    · intro h hh
      simp [createHighlights] at hh
    · simp [createHighlights]
  | cons p ps =>
    obtain ⟨hhead, htail⟩ := List.pairwise_cons.mp hpw
    have hpn : p < n := hb p (List.mem_cons_self p ps)
    have := highlightsLoop_valid ps p (p + 1) n (by omega) (by omega)
      (fun x hx => ⟨by have := hhead x hx; omega, hb x (List.mem_cons_of_mem p hx)⟩)
      htail
    exact ⟨fun h hh => (this.1 h hh).2, this.2⟩

/-- All highlights produced by `fuzzyScore` are valid for the target's
length. -/
theorem fuzzyScore_valid (q t orig : List Char) :
    ValidHighlights t.length (fuzzyScore q t orig).2 := by
  have hempty : ValidHighlights t.length ([] : List HighlightRange) :=
    ⟨fun h hh => absurd hh (List.not_mem_nil h), List.Pairwise.nil⟩
  obtain ⟨hpw, hbound⟩ := fuzzyWalk_positions q t 0 0
  have hch : ValidHighlights t.length
      (createHighlights (fuzzyWalk q t 0 0).1 orig) :=
    createHighlights_valid hpw fun p hp => by have := (hbound p hp).2; omega
  unfold fuzzyScore
  dsimp only
  split_ifs <;> first | exact hempty | exact hch

/-- `fuzzyScore` either rejects with `0` or accepts with score at least `10`. -/
theorem fuzzyScore_zero_or_ge_ten (q t orig : List Char) :
    (fuzzyScore q t orig).1 = 0 ∨ 10 ≤ (fuzzyScore q t orig).1 := by
  unfold fuzzyScore
  dsimp only
  split_ifs <;>
    first
      | exact Or.inl rfl
      | exact Or.inr (le_refl _)
      | exact Or.inr (le_of_not_lt (by assumption))

/-- A positive fuzzy score certifies an ordered-subsequence embedding. -/
theorem fuzzyScore_pos_sublist {q t orig : List Char}
    (h : 0 < (fuzzyScore q t orig).1) : q.Sublist t := by
  unfold fuzzyScore at h
  dsimp only at h
  split_ifs at h with h1 h2
  · exact absurd h (lt_irrefl 0)
  · exact absurd h (lt_irrefl 0)
  all_goals exact fuzzyWalk_rem_zero_sublist q t 0 0 (by omega)

/-! ## Lemmas about `scoreMatch` -/

theorem validHighlights_nil (n : Nat) : ValidHighlights n [] :=
  ⟨fun h hh => absurd hh (List.not_mem_nil h), List.Pairwise.nil⟩

theorem validHighlights_singleton {n s e : Nat} (h1 : s < e) (h2 : e ≤ n) :
    ValidHighlights n [⟨s, e⟩] := by
  constructor
  · intro h hh
    simp only [List.mem_singleton] at hh
    subst hh
    exact ⟨h1, h2⟩
  · simp

/-- Exhaustive case analysis of `scoreMatch`: exactly one scoring tier
applies. -/
theorem scoreMatch_cases (e : Engine) (q t : List Char) :
    (normalizeString e q = normalizeString e t ∧
        scoreMatch e q t = (100, [⟨0, t.length⟩])) ∨
      (normalizeString e q ≠ normalizeString e t ∧
        (normalizeString e q).isPrefixOf (normalizeString e t) = true ∧
        scoreMatch e q t = (90, [⟨0, q.length⟩])) ∨
      (∃ idx, normalizeString e q ≠ normalizeString e t ∧
        (normalizeString e q).isPrefixOf (normalizeString e t) = false ∧
        strIndex (normalizeString e q) (normalizeString e t) = some idx ∧
        scoreMatch e q t =
          ((if (80 : ℚ) - (idx : ℚ) * 2 < 50 then 50 else 80 - (idx : ℚ) * 2),
            [⟨idx, idx + q.length⟩])) ∨
      (normalizeString e q ≠ normalizeString e t ∧
        (normalizeString e q).isPrefixOf (normalizeString e t) = false ∧
        strIndex (normalizeString e q) (normalizeString e t) = none ∧
        ((0 < (fuzzyScore (normalizeString e q) (normalizeString e t) t).1 ∧
            scoreMatch e q t =
              fuzzyScore (normalizeString e q) (normalizeString e t) t) ∨
          ((fuzzyScore (normalizeString e q) (normalizeString e t) t).1 ≤ 0 ∧
            scoreMatch e q t = (0, [])))) := by
  by_cases h1 : normalizeString e q = normalizeString e t
  · refine Or.inl ⟨h1, ?_⟩
    unfold scoreMatch
    dsimp only
    rw [if_pos h1]
  · by_cases h2 : (normalizeString e q).isPrefixOf (normalizeString e t) = true
    · refine Or.inr (Or.inl ⟨h1, h2, ?_⟩)
      unfold scoreMatch
      dsimp only
      rw [if_neg h1, if_pos h2]
    · have h2f : (normalizeString e q).isPrefixOf (normalizeString e t) = false :=
        Bool.eq_false_iff.mpr h2
      rcases hv : strIndex (normalizeString e q) (normalizeString e t) with _ | idx
      · refine Or.inr (Or.inr (Or.inr ⟨h1, h2f, rfl, ?_⟩))
        by_cases h4 :
            0 < (fuzzyScore (normalizeString e q) (normalizeString e t) t).1
        · refine Or.inl ⟨h4, ?_⟩
          unfold scoreMatch
          dsimp only
          rw [if_neg h1, if_neg h2, hv]
          dsimp only
          rw [if_pos h4]
        · refine Or.inr ⟨le_of_not_lt h4, ?_⟩
          unfold scoreMatch
          dsimp only
          rw [if_neg h1, if_neg h2, hv]
          dsimp only
          rw [if_neg h4]
      · refine Or.inr (Or.inr (Or.inl ⟨idx, h1, h2f, rfl, ?_⟩))
        unfold scoreMatch
        dsimp only
        rw [if_neg h1, if_neg h2, hv]

theorem scoreMatch_nonneg (e : Engine) (q t : List Char) :
    0 ≤ (scoreMatch e q t).1 := by
  rcases scoreMatch_cases e q t with ⟨_, hsc⟩ | ⟨_, _, hsc⟩ |
    ⟨idx, _, _, _, hsc⟩ | ⟨_, _, _, ⟨hpos, hsc⟩ | ⟨_, hsc⟩⟩ <;> rw [hsc]
  · norm_num
  · norm_num
  · dsimp only
    split_ifs with h
    · norm_num
    · have := le_of_not_lt h
      linarith
  · exact le_of_lt hpos

theorem scoreMatch_exact {e : Engine} {q t : List Char}
    (h : normalizeString e q = normalizeString e t) :
    (scoreMatch e q t).1 = 100 := by
  rcases scoreMatch_cases e q t with ⟨_, hsc⟩ | ⟨hne, _, _⟩ |
    ⟨idx, hne, _, _, _⟩ | ⟨hne, _, _, _⟩
  · rw [hsc]
  · exact absurd h hne
  · exact absurd h hne
  · exact absurd h hne

theorem scoreMatch_pos_sublist {e : Engine} {q t : List Char}
    (h : 0 < (scoreMatch e q t).1) :
    (normalizeString e q).Sublist (normalizeString e t) := by
  rcases scoreMatch_cases e q t with ⟨heq, _⟩ | ⟨_, hpre, _⟩ |
    ⟨idx, _, _, hv, _⟩ | ⟨_, _, _, ⟨hpos, _⟩ | ⟨hle, hsc⟩⟩
  · rw [heq]
  · exact (List.isPrefixOf_iff_prefix.mp hpre).sublist
  · exact strIndex_sublist hv
  · exact fuzzyScore_pos_sublist hpos
  · rw [hsc] at h
    exact absurd h (lt_irrefl 0)

theorem scoreMatch_valid {e : Engine} {q t : List Char} (hq : 0 < q.length) :
    ValidHighlights t.length (scoreMatch e q t).2 := by
  have hqn : (normalizeString e q).length = q.length := normalizeString_length e q
  have htn : (normalizeString e t).length = t.length := normalizeString_length e t
  rcases scoreMatch_cases e q t with ⟨heq, hsc⟩ | ⟨_, hpre, hsc⟩ |
    ⟨idx, _, _, hv, hsc⟩ | ⟨_, _, _, ⟨_, hsc⟩ | ⟨_, hsc⟩⟩ <;> rw [hsc]
  · have ht : 0 < t.length := by
      have := congrArg List.length heq
      rw [hqn, htn] at this
      omega
    exact validHighlights_singleton ht (le_refl _)
  · have hle : q.length ≤ t.length := by
      have := (List.isPrefixOf_iff_prefix.mp hpre).length_le
      rw [hqn, htn] at this
      exact this
    exact validHighlights_singleton hq hle
  · have hb := strIndex_bound hv
    rw [hqn, htn] at hb
    exact validHighlights_singleton (by omega) hb
  · have := fuzzyScore_valid (normalizeString e q) (normalizeString e t) t
    rw [htn] at this
    exact this
  · exact validHighlights_nil _

/-! ## Search length and session-invariant lemmas -/

theorem limitResults_some {e : Engine} (l : List MatchResult)
    (hmax : 0 ≤ e.maxResults) : ∃ rs, limitResults e l = some rs := by
  unfold limitResults
  split_ifs with h1
  · exact ⟨l, rfl⟩
  · exact ⟨_, rfl⟩

theorem filterMap_mkMatch_length (e : Engine) (q : List Char) :
    ∀ secrets : List SearchResult,
      (secrets.filterMap (mkMatch e q)).length = positiveMatchCount e q secrets := by
  intro secrets
  induction secrets with
  | nil => rfl
  | cons s ss ih =>
    unfold positiveMatchCount at ih ⊢
    by_cases hp : 0 < (scoreMatch e q s.Key).1
    · have hmk : ∃ r, mkMatch e q s = some r := by
        unfold mkMatch
        dsimp only
        rw [if_pos hp]
        exact ⟨_, rfl⟩
      obtain ⟨r, hr⟩ := hmk
      rw [List.filterMap_cons, hr]
      simp [List.filter_cons, hp, ih]
    · have hmk : mkMatch e q s = none := by
        unfold mkMatch
        dsimp only
        rw [if_neg hp]
      rw [List.filterMap_cons, hmk]
      simp [List.filter_cons, hp, ih]

/-- The length of a capped non-empty-query search: the positive-score count,
capped at `maxResults`. -/
theorem search_length {e : Engine} {q : List Char} {secrets : List SearchResult}
    (hq : 0 < q.length) (hmax : 0 ≤ e.maxResults) :
    (Search e q secrets).map List.length =
      some (min (positiveMatchCount e q secrets) e.maxResults.toNat) := by
  unfold Search
  rw [if_neg (by omega)]
  obtain ⟨rs, hrs⟩ := limitResults_some
    (List.insertionSort (fun a b => resultLess e q b a = false)
      (secrets.filterMap (mkMatch e q))) hmax
  rw [hrs]
  have hlen := limitResults_length hrs
  rw [List.length_insertionSort, filterMap_mkMatch_length] at hlen
  rw [Option.map_some']
  rw [hlen]

theorem clampSelected_bounds {sel : Int} {n : Nat} (hpos : 0 < n) :
    0 ≤ (if (if (n : Int) ≤ sel then (n : Int) - 1 else sel) < 0 ∧ 0 < n then 0
         else if (n : Int) ≤ sel then (n : Int) - 1 else sel) ∧
      (if (if (n : Int) ≤ sel then (n : Int) - 1 else sel) < 0 ∧ 0 < n then 0
         else if (n : Int) ≤ sel then (n : Int) - 1 else sel) < (n : Int) := by
  by_cases h1 : (n : Int) ≤ sel
  · rw [if_pos h1]
    by_cases h2 : (n : Int) - 1 < 0 ∧ 0 < n
    · rw [if_pos h2]
      constructor <;> omega
    · rw [if_neg h2]
      constructor <;> omega
  · rw [if_neg h1]
    by_cases h2 : sel < 0 ∧ 0 < n
    · rw [if_pos h2]
      constructor <;> omega
    · rw [if_neg h2]
      rcases not_and_or.mp h2 with h3 | h3 <;> constructor <;> omega

theorem updateResults_inv {is is' : InteractiveSearch}
    (h : updateResults is = some is') :
    is'.results.length ≤ MaxDisplayResults ∧
      (is'.results ≠ [] → 0 ≤ is'.selected ∧
        is'.selected < (is'.results.length : Int)) := by
  unfold updateResults at h
  cases hs : Search is.engine is.query is.secrets with
  | none => rw [hs] at h; cases h
  | some allResults =>
    rw [hs] at h
    rw [Option.map_some'] at h
    cases h
    constructor
    · dsimp only
      rw [List.length_take]
      split_ifs <;> omega
    · intro hne
      have hpos : 0 < (List.take
          (if allResults.length < MaxDisplayResults then allResults.length
           else MaxDisplayResults) allResults).length := by
        dsimp only at hne
        exact List.length_pos.mpr hne
      exact clampSelected_bounds hpos

theorem addChar_inv {is is' : InteractiveSearch} {ch : Char}
    (h : AddChar is ch = some is') :
    (is'.results.length ≤ MaxDisplayResults ∧
      (is'.results ≠ [] → 0 ≤ is'.selected ∧
        is'.selected < (is'.results.length : Int))) ∧ is'.selected = 0 := by
  unfold AddChar at h
  cases hu : updateResults { is with query := is.query ++ [ch] } with
  | none => rw [hu] at h; cases h
  | some mid =>
    rw [hu] at h
    rw [Option.map_some'] at h
    cases h
    obtain ⟨hlen, _⟩ := updateResults_inv hu
    refine ⟨⟨hlen, fun hne => ⟨le_refl 0, ?_⟩⟩, rfl⟩
    have hp : 0 < mid.results.length := List.length_pos.mpr hne
    show (0 : Int) < (mid.results.length : Int)
    omega

theorem removeChar_inv {is is' : InteractiveSearch}
    (hinv : SessionInv is) (h : RemoveChar is = some is') : SessionInv is' := by
  unfold RemoveChar at h
  split_ifs at h with hq
  · cases hu : updateResults { is with query := is.query.dropLast } with
    | none => rw [hu] at h; cases h
    | some mid =>
      rw [hu] at h
      rw [Option.map_some'] at h
      cases h
      obtain ⟨hlen, _⟩ := updateResults_inv hu
      refine ⟨hlen, fun hne => ⟨le_refl 0, ?_⟩⟩
      have hp : 0 < mid.results.length := List.length_pos.mpr hne
      show (0 : Int) < (mid.results.length : Int)
      omega
  · cases h
    exact hinv

theorem removeChar_selected {is is' : InteractiveSearch}
    (hq : 0 < is.query.length) (h : RemoveChar is = some is') :
    is'.selected = 0 := by
  unfold RemoveChar at h
  rw [if_pos hq] at h
  cases hu : updateResults { is with query := is.query.dropLast } with
  | none => rw [hu] at h; cases h
  | some mid =>
    rw [hu] at h
    rw [Option.map_some'] at h
    cases h
    rfl

theorem moveSelection_inv {is : InteractiveSearch} (d : Int)
    (hinv : SessionInv is) : SessionInv (MoveSelection is d) := by
  unfold MoveSelection
  split_ifs with h0
  · exact hinv
  · have hpos : 0 < is.results.length := by
      rcases Nat.eq_zero_or_pos is.results.length with h | h
      · exact absurd h h0
      · exact h
    refine ⟨hinv.1, fun _ => ?_⟩
    dsimp only
    split_ifs with h1 h2 <;> constructor <;> omega

theorem runOps_inv {ops : List Op} :
    ∀ {is is' : InteractiveSearch}, SessionInv is →
      runOps is ops = some is' → SessionInv is' := by
  induction ops with
  | nil =>
    intro is is' hinv h
    cases h
    exact hinv
  | cons op ops ih =>
    intro is is' hinv h
    unfold runOps at h
    cases hap : applyOp is op with
    | none => rw [hap] at h; cases h
    | some mid =>
      rw [hap] at h
      refine ih ?_ h
      cases op with
      | add ch => exact (addChar_inv hap).1
      | remove => exact removeChar_inv hinv hap
      | move d =>
        unfold applyOp at hap
        cases hap
        exact moveSelection_inv d hinv

theorem newInteractiveSearch_inv (secrets : List SearchResult) :
    SessionInv (NewInteractiveSearch secrets) :=
  ⟨by simp [NewInteractiveSearch, MaxDisplayResults],
    fun hne => absurd rfl hne⟩

/-! ## Quality-classification inversion lemmas -/

theorem quality_exact {e : Engine} {q l : List Char}
    (h : GetMatchQuality e q l = .ExactMatch) :
    normalizeString e q = normalizeString e l := by
  unfold GetMatchQuality at h
  dsimp only at h
  split_ifs at h with g1
  exact g1

theorem quality_isPre {e : Engine} {q l : List Char}
    (h : GetMatchQuality e q l = .PrefixMatch) :
    normalizeString e q ≠ normalizeString e l ∧
      (normalizeString e q).isPrefixOf (normalizeString e l) = true := by
  unfold GetMatchQuality at h
  dsimp only at h
  split_ifs at h with g1 g2
  exact ⟨g1, g2⟩

theorem quality_substring {e : Engine} {q l : List Char}
    (h : GetMatchQuality e q l = .SubstringMatch) :
    normalizeString e q ≠ normalizeString e l ∧
      (normalizeString e q).isPrefixOf (normalizeString e l) = false ∧
      (strIndex (normalizeString e q) (normalizeString e l)).isSome = true := by
  unfold GetMatchQuality at h
  dsimp only at h
  split_ifs at h with g1 g2 g3
  exact ⟨g1, Bool.eq_false_iff.mpr g2, g3⟩

theorem quality_fuzzy {e : Engine} {q l : List Char}
    (h : GetMatchQuality e q l = .FuzzyMatch) :
    normalizeString e q ≠ normalizeString e l ∧
      (normalizeString e q).isPrefixOf (normalizeString e l) = false ∧
      strIndex (normalizeString e q) (normalizeString e l) = none ∧
      0 < (fuzzyScore (normalizeString e q) (normalizeString e l) l).1 := by
  unfold GetMatchQuality at h
  dsimp only at h
  split_ifs at h with g1 g2 g3 g4
  exact ⟨g1, Bool.eq_false_iff.mpr g2, Option.not_isSome_iff_eq_none.mp g3, g4⟩

/-! ## Claim theorems -/

/-- C1 (counterexample): with candidates `abc` and `abxc` and query `abc`,
the candidate `abc` normalizes equal to the query and no other candidate
scores exactly `100` (the fuzzy candidate scores `120`), yet the exact match
is NOT the first element of the result list. -/
theorem exact_match_first_cex :
    (scoreMatch NewEngine ['a', 'b', 'c']
        (⟨['a', 'b', 'x', 'c'], 0⟩ : SearchResult).Key).1 = 120 ∧
      (scoreMatch NewEngine ['a', 'b', 'c']
        (⟨['a', 'b', 'c'], 0⟩ : SearchResult).Key).1 = 100 ∧
      Search NewEngine ['a', 'b', 'c']
          [⟨['a', 'b', 'c'], 0⟩, ⟨['a', 'b', 'x', 'c'], 0⟩] =
        some [⟨⟨['a', 'b', 'x', 'c'], 0⟩, 120, [⟨0, 2⟩, ⟨3, 4⟩]⟩,
          ⟨⟨['a', 'b', 'c'], 0⟩, 100, [⟨0, 3⟩]⟩] := by
  decide

/-- C1 (amended): an exact-match candidate scores exactly `100`, and it is the
first element of the returned results whenever every OTHER candidate scores
strictly below `100` (not merely "does not score 100" — a fuzzy match can
exceed `100`) and at least one result is permitted. -/
theorem exact_match_first {e : Engine} {q : List Char}
    {secrets : List SearchResult} {sec : SearchResult}
    (hq : 0 < q.length) (hmem : sec ∈ secrets)
    (hex : normalizeString e q = normalizeString e sec.Key)
    (hothers : ∀ s ∈ secrets, s ≠ sec → (scoreMatch e q s.Key).1 < 100)
    (hmax : 1 ≤ e.maxResults) :
    (scoreMatch e q sec.Key).1 = 100 ∧
      ∃ r rest, Search e q secrets = some (r :: rest) ∧
        r.Result = sec ∧ r.Score = 100 := by
  have hscore : (scoreMatch e q sec.Key).1 = 100 := scoreMatch_exact hex
  refine ⟨hscore, ?_⟩
  have hsearch : Search e q secrets =
      limitResults e (List.insertionSort (fun a b => resultLess e q b a = false)
        (secrets.filterMap (mkMatch e q))) := by
    unfold Search
    rw [if_neg (by omega)]
  have hmk : mkMatch e q sec = some ⟨sec, (scoreMatch e q sec.Key).1,
      if e.highlightMatches then (scoreMatch e q sec.Key).2 else []⟩ := by
    unfold mkMatch
    dsimp only
    rw [if_pos (by rw [hscore]; norm_num)]
  have hin : (⟨sec, (scoreMatch e q sec.Key).1,
      if e.highlightMatches then (scoreMatch e q sec.Key).2 else []⟩ : MatchResult) ∈
      List.insertionSort (fun a b => resultLess e q b a = false)
        (secrets.filterMap (mkMatch e q)) := by
    rw [List.mem_insertionSort]
    exact List.mem_filterMap.mpr ⟨sec, hmem, hmk⟩
  have hsorted := search_sorted e q (secrets.filterMap (mkMatch e q))
  cases hsl : List.insertionSort (fun a b => resultLess e q b a = false)
      (secrets.filterMap (mkMatch e q)) with
  | nil =>
    rw [hsl] at hin
    cases hin
  | cons hd tl =>
    rw [hsl] at hsorted hin
    have hdmem : hd ∈ secrets.filterMap (mkMatch e q) := by
      have hmem' : hd ∈ List.insertionSort (fun a b => resultLess e q b a = false)
          (secrets.filterMap (mkMatch e q)) := by
        rw [hsl]
        exact List.mem_cons_self hd tl
      rw [List.mem_insertionSort] at hmem'
      exact hmem'
    obtain ⟨s, hs, hmks⟩ := List.mem_filterMap.mp hdmem
    obtain ⟨hspos, hsres, hssc, _⟩ := mkMatch_eq_some hmks
    have hdsec : s = sec := by
      by_contra hne
      have hlt : (scoreMatch e q s.Key).1 < 100 := hothers s hs hne
      rcases List.mem_cons.mp hin with heq | hintl
      · rw [← heq] at hsres
        exact hne (Eq.symm hsres)
      · have hrel := List.rel_of_sorted_cons hsorted _ hintl
        have hle := resultLess_false_score_le hrel
        dsimp only at hle
        rw [hscore] at hle
        rw [hssc] at hle
        exact absurd (lt_of_le_of_lt hle hlt) (by norm_num)
    obtain ⟨t', hlim⟩ := limitResults_cons hmax hd tl
    refine ⟨hd, t', ?_, ?_, ?_⟩
    · rw [hsearch, hsl, hlim]
    · rw [hsres, hdsec]
    · rw [hssc, hdsec, hscore]

/-- C1 (witness): concrete run of the amended theorem. -/
theorem exact_match_first_witness :
    (scoreMatch NewEngine ['a', 'b']
        (⟨['a', 'b'], 0⟩ : SearchResult).Key).1 = 100 ∧
      ∃ r rest, Search NewEngine ['a', 'b']
          [⟨['a', 'b'], 0⟩, ⟨['x', 'b'], 0⟩] = some (r :: rest) ∧
        r.Result = ⟨['a', 'b'], 0⟩ ∧ r.Score = 100 :=
  exact_match_first (by decide) (by decide) (by decide) (by decide) (by decide)

/-- C2 (counterexample): for query `abc`, label `xabc` is a substring-tier
match scoring `78` while label `abxc` is a fuzzy-tier match scoring `120`;
the fuzzy score exceeds the substring score, refuting
`Score(substring) ≥ Score(fuzzy)`. -/
theorem tier_scores_cex :
    GetMatchQuality NewEngine ['a', 'b', 'c'] ['x', 'a', 'b', 'c'] =
        .SubstringMatch ∧
      GetMatchQuality NewEngine ['a', 'b', 'c'] ['a', 'b', 'x', 'c'] =
        .FuzzyMatch ∧
      (scoreMatch NewEngine ['a', 'b', 'c'] ['x', 'a', 'b', 'c']).1 = 78 ∧
      (scoreMatch NewEngine ['a', 'b', 'c'] ['a', 'b', 'x', 'c']).1 = 120 ∧
      (scoreMatch NewEngine ['a', 'b', 'c'] ['x', 'a', 'b', 'c']).1 <
        (scoreMatch NewEngine ['a', 'b', 'c'] ['a', 'b', 'x', 'c']).1 := by
  decide

/-- C2 (amended): against one query, an exact-tier label scores `100`, a
prefix-tier label `90`, a substring-tier label within `[50, 80]` and a
fuzzy-tier label at least `10`; hence exact > prefix > substring > 0 and
fuzzy > 0, and every score is non-negative.  (A fuzzy score is NOT bounded by
substring scores — see the counterexample.) -/
theorem tier_scores (e : Engine) (q l1 l2 l3 l4 : List Char)
    (h1 : GetMatchQuality e q l1 = .ExactMatch)
    (h2 : GetMatchQuality e q l2 = .PrefixMatch)
    (h3 : GetMatchQuality e q l3 = .SubstringMatch)
    (h4 : GetMatchQuality e q l4 = .FuzzyMatch) :
    (scoreMatch e q l1).1 = 100 ∧ (scoreMatch e q l2).1 = 90 ∧
      50 ≤ (scoreMatch e q l3).1 ∧ (scoreMatch e q l3).1 ≤ 80 ∧
      10 ≤ (scoreMatch e q l4).1 ∧
      (scoreMatch e q l2).1 < (scoreMatch e q l1).1 ∧
      (scoreMatch e q l3).1 < (scoreMatch e q l2).1 ∧
      0 < (scoreMatch e q l4).1 ∧
      ∀ l, 0 ≤ (scoreMatch e q l).1 := by
  have s1 : (scoreMatch e q l1).1 = 100 := scoreMatch_exact (quality_exact h1)
  obtain ⟨hne2, hpre2⟩ := quality_isPre h2
  have s2 : (scoreMatch e q l2).1 = 90 := by
    rcases scoreMatch_cases e q l2 with ⟨heq, _⟩ | ⟨_, _, hsc⟩ |
      ⟨idx, _, hnp, _, _⟩ | ⟨_, hnp, _, _⟩
    · exact absurd heq hne2
    · rw [hsc]
    · rw [hpre2] at hnp
      exact Bool.noConfusion hnp
    · rw [hpre2] at hnp
      exact Bool.noConfusion hnp
  obtain ⟨hne3, hnp3, hsome3⟩ := quality_substring h3
  have s3 : 50 ≤ (scoreMatch e q l3).1 ∧ (scoreMatch e q l3).1 ≤ 80 := by
    rcases scoreMatch_cases e q l3 with ⟨heq, _⟩ | ⟨_, hpre, _⟩ |
      ⟨idx, _, _, _, hsc⟩ | ⟨_, _, hnone, _⟩
    · exact absurd heq hne3
    · rw [hpre] at hnp3
      exact Bool.noConfusion hnp3
    · rw [hsc]
      dsimp only
      have hidx : (0 : ℚ) ≤ (idx : ℚ) := Nat.cast_nonneg idx
      constructor
      · split_ifs with hlt
        · exact le_refl _
        · exact le_of_not_lt hlt
      · split_ifs with hlt
        · norm_num
        · linarith
    · rw [hnone] at hsome3
      simp at hsome3
  obtain ⟨hne4, hnp4, hnone4, hpos4⟩ := quality_fuzzy h4
  have s4 : 10 ≤ (scoreMatch e q l4).1 := by
    rcases scoreMatch_cases e q l4 with ⟨heq, _⟩ | ⟨_, hpre, _⟩ |
      ⟨idx, _, _, hv, _⟩ | ⟨_, _, _, ⟨_, hsc⟩ | ⟨hle, _⟩⟩
    · exact absurd heq hne4
    · rw [hpre] at hnp4
      exact Bool.noConfusion hnp4
    · rw [hnone4] at hv
      cases hv
    · rw [hsc]
      rcases fuzzyScore_zero_or_ge_ten (normalizeString e q)
          (normalizeString e l4) l4 with hz | hge
      · rw [hz] at hpos4
        exact absurd hpos4 (lt_irrefl 0)
      · exact hge
    · exact absurd hpos4 (not_lt.mpr hle)
  refine ⟨s1, s2, s3.1, s3.2, s4, ?_, ?_, ?_, fun l => scoreMatch_nonneg e q l⟩
  · rw [s1, s2]
    norm_num
  · rw [s2]
    linarith [s3.2]
  · linarith [s4]

/-- C2 (witness): concrete labels of each tier for query `ab`. -/
theorem tier_scores_witness :
    (scoreMatch NewEngine ['a', 'b'] ['a', 'b']).1 = 100 ∧
      (scoreMatch NewEngine ['a', 'b'] ['a', 'b', 'c']).1 = 90 ∧
      50 ≤ (scoreMatch NewEngine ['a', 'b'] ['x', 'a', 'b']).1 ∧
      (scoreMatch NewEngine ['a', 'b'] ['x', 'a', 'b']).1 ≤ 80 ∧
      10 ≤ (scoreMatch NewEngine ['a', 'b'] ['a', 'x', 'b']).1 ∧
      (scoreMatch NewEngine ['a', 'b'] ['a', 'b', 'c']).1 <
        (scoreMatch NewEngine ['a', 'b'] ['a', 'b']).1 ∧
      (scoreMatch NewEngine ['a', 'b'] ['x', 'a', 'b']).1 <
        (scoreMatch NewEngine ['a', 'b'] ['a', 'b', 'c']).1 ∧
      0 < (scoreMatch NewEngine ['a', 'b'] ['a', 'x', 'b']).1 ∧
      ∀ l, 0 ≤ (scoreMatch NewEngine ['a', 'b'] l).1 :=
  tier_scores NewEngine ['a', 'b'] ['a', 'b'] ['a', 'b', 'c'] ['x', 'a', 'b']
    ['a', 'x', 'b'] (by decide) (by decide) (by decide) (by decide)

/-- C3 (counterexample): with 11 candidates matching query `k`, the "second
search" of `Render` reports `totalMatches = 10` (it runs with the session
engine's cap of `2 × 5 = 10`, not unlimited) although 11 candidates score
positively; the "N more" figure is `10 − 5 = 5`, not `11 − 5 = 6`. -/
theorem overflow_uncapped_cex :
    (AddChar (NewInteractiveSearch
        [⟨['k', '0'], 0⟩, ⟨['k', '1'], 0⟩, ⟨['k', '2'], 0⟩, ⟨['k', '3'], 0⟩,
          ⟨['k', '4'], 0⟩, ⟨['k', '5'], 0⟩, ⟨['k', '6'], 0⟩, ⟨['k', '7'], 0⟩,
          ⟨['k', '8'], 0⟩, ⟨['k', '9'], 0⟩, ⟨['k', 'a'], 0⟩]) 'k').map
        (fun is => (renderTotalMatches is, renderMoreCount is,
          positiveMatchCount is.engine is.query is.secrets,
          is.results.length)) =
      some (some 10, some 5, 11, 5) ∧ (10 : Nat) ≠ 11 := by
  exact ⟨by decide, by decide⟩

/-- C3 (amended): the `totalMatches` figure of `Render` equals the number of
positively scoring candidates capped at the session engine's configured
`maxResults` (`2 × displayLimit = 10`), not the uncapped count; the reported
overflow is that capped figure minus the number of visible results. -/
theorem overflow_capped (is : InteractiveSearch) (hq : 0 < is.query.length)
    (hmax : 0 ≤ is.engine.maxResults) :
    renderTotalMatches is =
      some (min (positiveMatchCount is.engine is.query is.secrets)
        is.engine.maxResults.toNat) ∧
      renderMoreCount is =
        some (min (positiveMatchCount is.engine is.query is.secrets)
          is.engine.maxResults.toNat - is.results.length) := by
  have h := @search_length is.engine is.query is.secrets hq hmax
  constructor
  · unfold renderTotalMatches
    exact h
  · unfold renderMoreCount renderTotalMatches
    cases hs : Search is.engine is.query is.secrets with
    | none => rw [hs] at h; cases h
    | some rs =>
      rw [hs] at h
      rw [Option.map_some'] at h
      injection h with h
      rw [Option.map_some', Option.map_some', h]

/-- C3 (witness): concrete session state for the amended theorem. -/
theorem overflow_capped_witness :
    renderTotalMatches
        { engine := SetMaxResults NewEngine 10,
          secrets := [⟨['a', 'b'], 0⟩], results := [], query := ['a'],
          selected := 0, active := true } =
      some (min (positiveMatchCount (SetMaxResults NewEngine 10) ['a']
        [⟨['a', 'b'], 0⟩]) (10 : Int).toNat) ∧
      renderMoreCount
          { engine := SetMaxResults NewEngine 10,
            secrets := [⟨['a', 'b'], 0⟩], results := [], query := ['a'],
            selected := 0, active := true } =
        some (min (positiveMatchCount (SetMaxResults NewEngine 10) ['a']
          [⟨['a', 'b'], 0⟩]) (10 : Int).toNat - 0) :=
  overflow_capped _ (by decide) (by decide)

/-- C4 (code bug): a negative `maxResults` is not clamped; the truncation step
`results[:maxResults]` is a slice-bounds panic, so the search aborts instead of
falling back to a sane default. -/
theorem negative_max_aborts_search :
    Search (SetMaxResults NewEngine (-1)) ['k'] [⟨['k'], 0⟩] = none := by
  decide

/-- C5 (counterexample): a finalized session that selected a candidate with an
empty label and a cancelled session produce the same caller-visible outcome —
the empty string — although their final states differ. -/
theorem outcome_conflation_cex :
    runSearchOutcome
        { search := NewInteractiveSearch [⟨[], 0⟩], quitting := true,
          selected := some ⟨⟨[], 0⟩, 0, []⟩ } =
      runSearchOutcome
        { search := NewInteractiveSearch [⟨[], 0⟩], quitting := true,
          selected := none } ∧
      (some (⟨⟨[], 0⟩, 0, []⟩ : MatchResult) ≠ (none : Option MatchResult)) := by
  exact ⟨rfl, by decide⟩

/-- C5 (amended): finalizing with a selection yields the selected label and
cancelling (or finalizing with nothing selected) yields the empty string; the
two outcomes are distinguishable exactly when the selected label is non-empty —
an empty-string label IS conflated with the no-selection signal. -/
theorem outcome_distinguishable (m m' : Model) (r : MatchResult)
    (hsel : m.selected = some r) (hk : r.Result.Key ≠ [])
    (hnone : m'.selected = none) :
    runSearchOutcome m = r.Result.Key ∧ runSearchOutcome m' = [] ∧
      runSearchOutcome m ≠ runSearchOutcome m' := by
  unfold runSearchOutcome
  rw [hsel, hnone]
  exact ⟨rfl, rfl, hk⟩

/-- C5 (witness): concrete final models for the amended theorem. -/
theorem outcome_distinguishable_witness :
    runSearchOutcome
        { search := NewInteractiveSearch [], quitting := true,
          selected := some ⟨⟨['a'], 0⟩, 100, []⟩ } =
      (⟨⟨['a'], 0⟩, 100, []⟩ : MatchResult).Result.Key ∧
      runSearchOutcome
          { search := NewInteractiveSearch [], quitting := true,
            selected := none } = [] ∧
      runSearchOutcome
          { search := NewInteractiveSearch [], quitting := true,
            selected := some ⟨⟨['a'], 0⟩, 100, []⟩ } ≠
        runSearchOutcome
          { search := NewInteractiveSearch [], quitting := true,
            selected := none } :=
  outcome_distinguishable _ _ _ rfl (by decide) rfl

/-- C6: every `MatchResult` returned by `Search` with non-empty highlights has
all ranges within the label's bounds (`start < end ≤ len`), sorted ascending
and pairwise non-overlapping. -/
theorem highlights_valid {e : Engine} {q : List Char}
    {secrets : List SearchResult} {rs : List MatchResult} {r : MatchResult}
    (h : Search e q secrets = some rs) (hr : r ∈ rs)
    (hne : r.Highlights ≠ []) :
    ValidHighlights r.Result.Key.length r.Highlights := by
  by_cases hq : q.length = 0
  · obtain ⟨_, _, hhl⟩ := search_mem_empty hq h hr
    exact absurd hhl hne
  · obtain ⟨s, hs, hmk⟩ := search_mem (by omega) h hr
    obtain ⟨_, hres, _, hhl⟩ := mkMatch_eq_some hmk
    cases hflag : e.highlightMatches with
    | false =>
      rw [hflag] at hhl
      simp only [Bool.false_eq_true, if_false] at hhl
      exact absurd hhl hne
    | true =>
      rw [hflag] at hhl
      simp only [if_true] at hhl
      rw [hres, hhl]
      exact scoreMatch_valid (by omega)

/-- C6 (witness): a concrete substring match with its highlight checked. -/
theorem highlights_valid_witness :
    Search NewEngine ['b', 'c'] [⟨['a', 'b', 'c'], 0⟩] =
        some [⟨⟨['a', 'b', 'c'], 0⟩, 78, [⟨1, 3⟩]⟩] ∧
      ValidHighlights
        (⟨⟨['a', 'b', 'c'], 0⟩, 78, [⟨1, 3⟩]⟩ : MatchResult).Result.Key.length
        (⟨⟨['a', 'b', 'c'], 0⟩, 78, [⟨1, 3⟩]⟩ : MatchResult).Highlights :=
  ⟨by decide,
    @highlights_valid NewEngine ['b', 'c'] [⟨['a', 'b', 'c'], 0⟩]
      [⟨⟨['a', 'b', 'c'], 0⟩, 78, [⟨1, 3⟩]⟩] ⟨⟨['a', 'b', 'c'], 0⟩, 78, [⟨1, 3⟩]⟩
      (by decide) (by decide) (by decide)⟩

/-- C7: when the normalized query occurs in the normalized label as a
contiguous substring first at offset `idx` — and the match is neither exact nor
a whole-label-starting match — `scoreMatch` returns `max(50, 80 − 2·idx)` with
the single highlight `[idx, idx + len(query))`. -/
theorem substring_tier_score (e : Engine) (q l : List Char) (idx : Nat)
    (hq : 0 < q.length)
    (hne : normalizeString e q ≠ normalizeString e l)
    (hnp : (normalizeString e q).isPrefixOf (normalizeString e l) = false)
    (hat : (normalizeString e q).isPrefixOf
      ((normalizeString e l).drop idx) = true)
    (hfirst : ∀ j, j < idx →
      (normalizeString e q).isPrefixOf ((normalizeString e l).drop j) = false) :
    scoreMatch e q l =
      (max 50 (80 - (idx : ℚ) * 2), [⟨idx, idx + q.length⟩]) := by
  have hv : strIndex (normalizeString e q) (normalizeString e l) = some idx :=
    strIndex_eq_some hat hfirst
  rcases scoreMatch_cases e q l with ⟨heq, _⟩ | ⟨_, hpre, _⟩ |
    ⟨idx', _, _, hv', hsc⟩ | ⟨_, _, hv', _⟩
  · exact absurd heq hne
  · rw [hpre] at hnp
    exact Bool.noConfusion hnp
  · rw [hv] at hv'
    injection hv' with hidx
    subst hidx
    rw [hsc]
    have hmax : (if (80 : ℚ) - (idx : ℚ) * 2 < 50 then (50 : ℚ)
        else 80 - (idx : ℚ) * 2) = max 50 (80 - (idx : ℚ) * 2) := by
      by_cases hlt : (80 : ℚ) - (idx : ℚ) * 2 < 50
      · rw [if_pos hlt, max_eq_left (le_of_lt hlt)]
      · rw [if_neg hlt, max_eq_right (le_of_not_lt hlt)]
    rw [hmax]
  · rw [hv] at hv'
    cases hv'

/-- C7 (witness): query `bc` in label `abc` at offset `1`. -/
theorem substring_tier_score_witness :
    scoreMatch NewEngine ['b', 'c'] ['a', 'b', 'c'] =
      (max 50 (80 - ((1 : Nat) : ℚ) * 2), [⟨1, 1 + (['b', 'c']).length⟩]) :=
  substring_tier_score NewEngine ['b', 'c'] ['a', 'b', 'c'] 1 (by decide)
    (by decide) (by decide) (by decide) (by decide)

/-- C8: a candidate whose normalized label does not contain the normalized
query as an ordered subsequence never appears in the result list of a
non-empty-query search — with any score. -/
theorem no_subsequence_excluded {e : Engine} {q : List Char}
    {secrets : List SearchResult} {rs : List MatchResult}
    (sec : SearchResult) (hq : 0 < q.length)
    (hns : ¬ (normalizeString e q).Sublist (normalizeString e sec.Key))
    (h : Search e q secrets = some rs) :
    ∀ r ∈ rs, r.Result ≠ sec := by
  intro r hr heq
  obtain ⟨s, hs, hmk⟩ := search_mem hq h hr
  obtain ⟨hpos, hres, _, _⟩ := mkMatch_eq_some hmk
  apply hns
  have hsub := scoreMatch_pos_sublist hpos
  rw [heq] at hres
  rw [hres]
  exact hsub

/-- C8 (witness): `b` does not contain the query `ab` as a subsequence, so it
is absent from results while `ab` itself matches. -/
theorem no_subsequence_excluded_witness :
    Search NewEngine ['a', 'b'] [⟨['a', 'b'], 0⟩, ⟨['b'], 0⟩] =
        some [⟨⟨['a', 'b'], 0⟩, 100, [⟨0, 2⟩]⟩] ∧
      ∀ r ∈ [(⟨⟨['a', 'b'], 0⟩, 100, [⟨0, 2⟩]⟩ : MatchResult)],
        r.Result ≠ ⟨['b'], 0⟩ :=
  ⟨by decide,
    @no_subsequence_excluded NewEngine ['a', 'b'] [⟨['a', 'b'], 0⟩, ⟨['b'], 0⟩]
      [⟨⟨['a', 'b'], 0⟩, 100, [⟨0, 2⟩]⟩] ⟨['b'], 0⟩ (by decide) (by decide)
      (by decide)⟩

/-- C9: after any sequence of session operations from the initial state, the
visible window holds at most `MaxDisplayResults` results and the selection
index is in bounds whenever the window is non-empty; moreover, every query
mutation (`AddChar`, or `RemoveChar` on a non-empty query) resets the selection
index to `0`. -/
theorem session_invariant (secrets : List SearchResult) (ops : List Op)
    (is' : InteractiveSearch)
    (hrun : runOps (NewInteractiveSearch secrets) ops = some is') :
    SessionInv is' ∧
      (∀ (is : InteractiveSearch) (ch : Char) (is'' : InteractiveSearch),
        AddChar is ch = some is'' → is''.selected = 0) ∧
      (∀ (is is'' : InteractiveSearch), 0 < is.query.length →
        RemoveChar is = some is'' → is''.selected = 0) :=
  ⟨runOps_inv (newInteractiveSearch_inv secrets) hrun,
    fun _ _ _ h => (addChar_inv h).2,
    fun _ _ hq h => removeChar_selected hq h⟩

/-- C9 (witness): a concrete run of add, navigate, delete. -/
theorem session_invariant_witness :
    runOps (NewInteractiveSearch [⟨['a', 'b'], 0⟩])
        [.add 'a', .move 1, .remove] =
      some ({ engine := SetMaxResults NewEngine 10,
              secrets := [⟨['a', 'b'], 0⟩],
              results := [⟨⟨['a', 'b'], 0⟩, 0, []⟩], query := [],
              selected := 0, active := true } : InteractiveSearch) ∧
      SessionInv ({ engine := SetMaxResults NewEngine 10,
                    secrets := [⟨['a', 'b'], 0⟩],
                    results := [⟨⟨['a', 'b'], 0⟩, 0, []⟩], query := [],
                    selected := 0, active := true } : InteractiveSearch) :=
  ⟨by decide,
    (session_invariant [⟨['a', 'b'], 0⟩] [.add 'a', .move 1, .remove] _
      (by decide)).1⟩

/-- C10: `SearchInteractive` returns exactly what `Search` returns with
`maxResults` set to the requested cap, and the engine afterwards carries its
original `maxResults` and all other options (a panic of the inner search
propagates identically on both sides). -/
theorem searchInteractive_frame (e : Engine) (q : List Char)
    (secrets : List SearchResult) (k : Int) :
    SearchInteractive e q secrets k =
      (Search (SetMaxResults e k) q secrets).map fun rs => (rs, e) := rfl

end Lockr
